import Mathlib

/-!
Verification of the text/summarization core of the ADA PDF-analysis project.

Texts are modelled as `List Char` (Python strings are sequences of Unicode
code points).  Each definition below is a shallow embedding of the function
of the same name in `src/utils/text.py`, `src/llm/summarize.py`,
`src/pdf/extractor.py` or `src/main.py`.  Library routines that the source
delegates to (Python `str.split`, `str.lower`, `str.strip`,
`unicodedata.normalize`, the `re` module) are embedded explicitly; the
Unicode-table-driven ones are embedded exactly on the Latin-1 repertoire,
which is the whole alphabet the tokenizer's character filter admits, and
act as the identity on code points above U+00FF.
-/

namespace ADA

/-- Python whitespace: the set of code points on which `str.split()` with no
arguments splits, and which `str.strip()` removes (`Py_UNICODE_ISSPACE`). -/
def isPySpaceNat (n : Nat) : Bool :=
  (9 ≤ n && n ≤ 13) || (28 ≤ n && n ≤ 32) || n == 0x85 || n == 0xA0 ||
  n == 0x1680 || (0x2000 ≤ n && n ≤ 0x200A) || n == 0x2028 || n == 0x2029 ||
  n == 0x202F || n == 0x205F || n == 0x3000

/-- Python whitespace test on a character. -/
def isPySpace (c : Char) : Bool :=
  isPySpaceNat c.toNat

/-- Complement of the character class that `tokenize` substitutes away:
the regex keeps `0-9` (only when `keep_numbers`), `A-Z`, `a-z`, `À-Ö`,
`Ø-ö` and `ø-ÿ` (code points 0xC0-0xD6, 0xD8-0xF6, 0xF8-0xFF). -/
def allowedNat (keep_numbers : Bool) (n : Nat) : Bool :=
  (keep_numbers && (0x30 ≤ n && n ≤ 0x39)) ||
  (0x41 ≤ n && n ≤ 0x5A) || (0x61 ≤ n && n ≤ 0x7A) ||
  (0xC0 ≤ n && n ≤ 0xD6) || (0xD8 ≤ n && n ≤ 0xF6) || (0xF8 ≤ n && n ≤ 0xFF)

/-- Character form of `allowedNat`. -/
def allowedChar (keep_numbers : Bool) (c : Char) : Bool :=
  allowedNat keep_numbers c.toNat

/-- Code points that Python `str.lower()` maps down by 0x20 within Latin-1:
`A-Z`, `À-Ö`, `Ø-Þ`. -/
def upperNat (n : Nat) : Bool :=
  (0x41 ≤ n && n ≤ 0x5A) || (0xC0 ≤ n && n ≤ 0xD6) || (0xD8 ≤ n && n ≤ 0xDE)

/-- Python `str.lower()` on one character, embedded exactly on the Latin-1
block (the alphabet `tokenize`'s filter admits, where it is applied);
identity on higher code points. -/
def lowerChar (c : Char) : Char :=
  if upperNat c.toNat then Char.ofNat (c.toNat + 0x20) else c

/-- Unicode NFKD decomposition table for the Latin-1 supplement
(code points 0xA0-0xFF that decompose; the rest of Latin-1 is NFKD-fixed).
Entries are (code point, full decomposition). -/
def nfkdTable : List (Nat × List Nat) :=
  [(0xA0, [0x20]), (0xA8, [0x20, 0x308]), (0xAA, [0x61]), (0xAF, [0x20, 0x304]),
   (0xB2, [0x32]), (0xB3, [0x33]), (0xB4, [0x20, 0x301]), (0xB5, [0x3BC]),
   (0xB8, [0x20, 0x327]), (0xB9, [0x31]), (0xBA, [0x6F]),
   (0xBC, [0x31, 0x2044, 0x34]), (0xBD, [0x31, 0x2044, 0x32]), (0xBE, [0x33, 0x2044, 0x34]),
   (0xC0, [0x41, 0x300]), (0xC1, [0x41, 0x301]), (0xC2, [0x41, 0x302]),
   (0xC3, [0x41, 0x303]), (0xC4, [0x41, 0x308]), (0xC5, [0x41, 0x30A]),
   (0xC7, [0x43, 0x327]),
   (0xC8, [0x45, 0x300]), (0xC9, [0x45, 0x301]), (0xCA, [0x45, 0x302]), (0xCB, [0x45, 0x308]),
   (0xCC, [0x49, 0x300]), (0xCD, [0x49, 0x301]), (0xCE, [0x49, 0x302]), (0xCF, [0x49, 0x308]),
   (0xD1, [0x4E, 0x303]),
   (0xD2, [0x4F, 0x300]), (0xD3, [0x4F, 0x301]), (0xD4, [0x4F, 0x302]),
   (0xD5, [0x4F, 0x303]), (0xD6, [0x4F, 0x308]),
   (0xD9, [0x55, 0x300]), (0xDA, [0x55, 0x301]), (0xDB, [0x55, 0x302]), (0xDC, [0x55, 0x308]),
   (0xDD, [0x59, 0x301]),
   (0xE0, [0x61, 0x300]), (0xE1, [0x61, 0x301]), (0xE2, [0x61, 0x302]),
   (0xE3, [0x61, 0x303]), (0xE4, [0x61, 0x308]), (0xE5, [0x61, 0x30A]),
   (0xE7, [0x63, 0x327]),
   (0xE8, [0x65, 0x300]), (0xE9, [0x65, 0x301]), (0xEA, [0x65, 0x302]), (0xEB, [0x65, 0x308]),
   (0xEC, [0x69, 0x300]), (0xED, [0x69, 0x301]), (0xEE, [0x69, 0x302]), (0xEF, [0x69, 0x308]),
   (0xF1, [0x6E, 0x303]),
   (0xF2, [0x6F, 0x300]), (0xF3, [0x6F, 0x301]), (0xF4, [0x6F, 0x302]),
   (0xF5, [0x6F, 0x303]), (0xF6, [0x6F, 0x308]),
   (0xF9, [0x75, 0x300]), (0xFA, [0x75, 0x301]), (0xFB, [0x75, 0x302]), (0xFC, [0x75, 0x308]),
   (0xFD, [0x79, 0x301]), (0xFF, [0x79, 0x308])]

/-- NFKD decomposition of one character: table-driven on Latin-1
(`unicodedata.normalize('NFKD', ...)` is an external library routine;
it is embedded exactly for code points below 0x100 and as the identity
above, the alphabet the surrounding filter admits being Latin-1 only). -/
def nfkdChar (c : Char) : List Char :=
  match List.lookup c.toNat nfkdTable with
  | some ns => ns.map Char.ofNat
  | none => [c]

/-- A character the NFKD step leaves alone. -/
def nfkdFixed (c : Char) : Bool :=
  (List.lookup c.toNat nfkdTable).isNone

/-- Embedding of `normalize_unicode` from `src/utils/text.py`:
`unicodedata.normalize('NFKD', text)`. -/
def normalize_unicode (s : List Char) : List Char :=
  (s.map nfkdChar).flatten

/-- Word characters for the regex `\w` (underscore, digits, letters),
embedded exactly on Latin-1 and treated as non-word above 0xFF. -/
def isWordChar (c : Char) : Bool :=
  c.toNat == 0x5F || (0x30 ≤ c.toNat && c.toNat ≤ 0x39) ||
  (0x41 ≤ c.toNat && c.toNat ≤ 0x5A) || (0x61 ≤ c.toNat && c.toNat ≤ 0x7A) ||
  c.toNat == 0xAA || c.toNat == 0xB5 || c.toNat == 0xBA ||
  (0xC0 ≤ c.toNat && c.toNat ≤ 0xD6) || (0xD8 ≤ c.toNat && c.toNat ≤ 0xF6) ||
  (0xF8 ≤ c.toNat && c.toNat ≤ 0xFF)

/-- Scanner of `remove_line_breaks_hyphens`, the left-to-right scan of
Python `re.sub(r'(\w+)-\s*\n\s*(\w+)', r'\1\2', text)`.  A match is a
maximal word run, a hyphen, a whitespace run containing a newline, and the
following maximal word run; it is replaced by the two word runs glued
together and scanning resumes after the match.  The recursion is
structural on a fuel counter so that the function evaluates by kernel
reduction; every recursive call consumes at least one character, so
`s.length` units of fuel always suffice, and on fuel exhaustion the rest
of the text is left unchanged. -/
def hyphenScan : Nat → List Char → List Char
  | 0, s => s
  | _ + 1, [] => []
  | fuel + 1, c :: cs =>
    if isWordChar c then
      match (c :: cs).dropWhile isWordChar with
      | '-' :: r2 =>
        if '\n' ∈ r2.takeWhile isPySpace ∧ isWordChar ((r2.dropWhile isPySpace).headD ' ') then
          (c :: cs).takeWhile isWordChar ++ (r2.dropWhile isPySpace).takeWhile isWordChar
            ++ hyphenScan fuel ((r2.dropWhile isPySpace).dropWhile isWordChar)
        else
          (c :: cs).takeWhile isWordChar ++ '-' :: hyphenScan fuel r2
      | rest => (c :: cs).takeWhile isWordChar ++ hyphenScan fuel rest
    else
      c :: hyphenScan fuel cs

/-- Embedding of `remove_line_breaks_hyphens` from `src/utils/text.py`. -/
def remove_line_breaks_hyphens (s : List Char) : List Char :=
  hyphenScan s.length s

/-- Core of the whitespace splitter: returns the (possibly empty) group of
leading keep-characters and the list of the later maximal non-empty groups. -/
def splitSepCore (p : Char → Bool) : List Char → List Char × List (List Char)
  | [] => ([], [])
  | c :: cs =>
    let r := splitSepCore p cs
    if p c then (c :: r.1, r.2) else ([], if r.1 = [] then r.2 else r.1 :: r.2)

/-- Maximal non-empty runs of characters satisfying `p`, in order. -/
def splitSep (p : Char → Bool) (s : List Char) : List (List Char) :=
  let r := splitSepCore p s
  if r.1 = [] then r.2 else r.1 :: r.2

/-- Embedding of Python `str.split()` with no arguments: maximal runs of
non-whitespace, empties discarded. -/
def pySplit (s : List Char) : List (List Char) :=
  splitSep (fun c => !isPySpace c) s

/-- Embedding of `re.sub(pattern, ' ', text)` where `pattern` is one-or-more
characters outside `p`: each maximal run of non-`p` characters becomes one
space. -/
def reSubSep (p : Char → Bool) : List Char → List Char
  | [] => []
  | [c] => if p c then [c] else [' ']
  | c :: d :: cs =>
    if p c then c :: reSubSep p (d :: cs)
    else if p d then ' ' :: reSubSep p (d :: cs)
    else reSubSep p (d :: cs)

/-- Embedding of `tokenize` from `src/utils/text.py`: optional advanced
cleaning (NFKD plus line-break-hyphen rejoining), substitution of runs of
non-alphabet characters by a space, Python `split()`, and lowercasing of
each non-empty word. -/
def tokenize (text : List Char) (keep_numbers : Bool) (advanced_clean : Bool) : List (List Char) :=
  let text1 := if advanced_clean then remove_line_breaks_hyphens (normalize_unicode text) else text
  let text2 := reSubSep (allowedChar keep_numbers) text1
  ((pySplit text2).filter (fun w => !w.isEmpty)).map (fun w => w.map lowerChar)

/-- Embedding of `count_words` from `src/utils/text.py`
(`advanced_clean` defaults to `True` in the source). -/
def count_words (text : List Char) (keep_numbers : Bool) : Nat :=
  (tokenize text keep_numbers true).length

/-- Embedding of `get_vocabulary_size` from `src/utils/text.py`:
`len(set(tokens))`, the number of distinct tokens. -/
def get_vocabulary_size (text : List Char) (keep_numbers : Bool) : Nat :=
  (tokenize text keep_numbers true).dedup.length

/-- Distinct elements in first-occurrence order: the key order of a Python
`Counter`/`dict` built by insertion. -/
def firstDedup : List (List Char) → List (List Char)
  | [] => []
  | w :: ws => w :: (firstDedup ws).filter (fun v => decide (v ≠ w))

/-- Items of `collections.Counter(tokens)`: each distinct token, in
first-occurrence order, with its occurrence count. -/
def counterItems (tokens : List (List Char)) : List (List Char × Nat) :=
  (firstDedup tokens).map (fun w => (w, tokens.count w))

/-- Embedding of `get_most_common_words` from `src/utils/text.py`.
The NLTK Portuguese stopword corpus is an external resource loaded at
process start; it enters here as the explicit parameter `stop_words`.
`Counter.most_common(n)` is a stable descending sort by count, truncated
to `n` entries. -/
def get_most_common_words (stop_words : List (List Char)) (text : List Char) (n : Nat)
    (remove_stopwords : Bool) (keep_numbers : Bool) : List (List Char × Nat) :=
  let tokens := tokenize text keep_numbers true
  let tokens2 := if remove_stopwords
    then tokens.filter (fun w => decide (w ∉ stop_words ∧ 2 < w.length))
    else tokens
  ((counterItems tokens2).mergeSort (fun a b => decide (b.2 ≤ a.2))).take n

/-- Python `' '.join`. -/
def joinSep (sep : List Char) : List (List Char) → List Char
  | [] => []
  | [w] => w
  | w :: ws => w ++ sep ++ joinSep sep ws

/-- Loop of `split_into_chunks` from `src/utils/text.py`: greedy word
packing with running length `current_length` (each word costs its length
plus one), flushing the current chunk when the next word would overflow
`max_length` and the chunk is non-empty. -/
def chunkLoop (max_length : Nat) : List (List Char) → List (List Char) → Nat → List (List Char)
  | [], current_chunk, _ =>
    if current_chunk = [] then [] else [joinSep [' '] current_chunk]
  | word :: rest, current_chunk, current_length =>
    if max_length < current_length + (word.length + 1) ∧ current_chunk ≠ [] then
      joinSep [' '] current_chunk :: chunkLoop max_length rest [word] (word.length + 1)
    else
      chunkLoop max_length rest (current_chunk ++ [word]) (current_length + (word.length + 1))

/-- Embedding of `split_into_chunks` from `src/utils/text.py`. -/
def split_into_chunks (text : List Char) (max_length : Nat) : List (List Char) :=
  chunkLoop max_length (pySplit text) [] 0

/-- One request to the model collaborator (`LLMModel.generate_text` in
`src/llm/model.py`): prompt text, `max_length`, `min_length` and the
`deterministic` flag. -/
structure GenRequest where
  prompt : List Char
  max_length : Nat
  min_length : Nat
  deterministic : Bool

/-- Per-chunk prompt template of `Summarizer.summarize`. -/
def chunkPrompt (chunk : List Char) : List Char :=
  ("Resuma o seguinte texto em português de forma clara e objetiva, " ++
   "focando nos pontos principais e conclusões:\n\n").toList ++ chunk

/-- Consolidation prompt template of `Summarizer.summarize`. -/
def consolidationPrompt (combined : List Char) : List Char :=
  ("Faça um resumo consolidado em até 3 parágrafos do seguinte conteúdo, " ++
   "mantendo as informações mais relevantes:\n\n").toList ++ combined

/-- Direct-path prompt template of `Summarizer.summarize`. -/
def directPrompt (t : List Char) : List Char :=
  ("Resuma o seguinte texto em português de forma clara para um público geral, " ++
   "enfatizando objetivos, metodologia e conclusões principais:\n\n").toList ++ t

/-- The per-chunk loop of `Summarizer.summarize`: issue one request per
chunk in order, stopping at the first model failure (a raised exception
propagates).  Returns the chunk summaries and the trace of requests
actually issued. -/
def runChunks {ε : Type} (gen : GenRequest → Except ε (List Char)) (det : Bool) :
    List (List Char) → Except ε (List (List Char)) × List GenRequest
  | [] => (Except.ok [], [])
  | chunk :: rest =>
    let req : GenRequest := ⟨chunkPrompt chunk, 200, 30, det⟩
    match gen req with
    | Except.error e => (Except.error e, [req])
    | Except.ok s =>
      let r := runChunks gen det rest
      (r.1.map (fun ss => s :: ss), req :: r.2)

/-- Embedding of `Summarizer.summarize` from `src/llm/summarize.py`.
The model collaborator enters as the oracle `gen`; a model-invocation
failure is an `Except.error` and propagates.  The second component is the
trace of model requests issued, in order. -/
def summarize {ε : Type} (gen : GenRequest → Except ε (List Char)) (text : List Char)
    (max_summary_length : Nat) (deterministic : Bool) :
    Except ε (List Char) × List GenRequest :=
  if 3000 < text.length then
    let chunks := split_into_chunks text 1000
    let r := runChunks gen deterministic (chunks.take 5)
    match r.1 with
    | Except.error e => (Except.error e, r.2)
    | Except.ok chunk_summaries =>
      let combined := joinSep [' '] chunk_summaries
      let req : GenRequest := ⟨consolidationPrompt combined, max_summary_length, 100, deterministic⟩
      (gen req, r.2 ++ [req])
  else
    let req : GenRequest := ⟨directPrompt (text.take 2000), max_summary_length, 50, deterministic⟩
    (gen req, [req])

/-- Embedding of `_run_summarization` from `src/main.py`: it calls
`summarizer.summarize(...)` and then `summarizer.cleanup()` in straight
line, with no `try`/`finally`, so when `summarize` raises, the exception
propagates to `main`'s handler and `cleanup()` (which unloads the model)
is never reached.  The boolean records whether `cleanup` was invoked. -/
def run_summarization {ε : Type} (gen : GenRequest → Except ε (List Char))
    (full_text : List Char) (deterministic : Bool) : Except ε (List Char) × Bool :=
  match (summarize gen full_text 500 deterministic).1 with
  | Except.ok s => (Except.ok s, true)
  | Except.error e => (Except.error e, false)

/-- A model collaborator whose invocation always fails (for instance
`generate_text` raising from the model runtime). -/
def failingGen : GenRequest → Except Unit (List Char) :=
  fun _ => Except.error ()

/-- Python `str.strip()`: remove leading and trailing whitespace. -/
def pyStrip (s : List Char) : List Char :=
  ((s.dropWhile isPySpace).reverse.dropWhile isPySpace).reverse

/-- One text span of the page-layout collaborator (PyMuPDF
`page.get_text("dict")`): text, font size (a float in the source, only
ever compared against the threshold 12, hence modelled as a rational) and
the font-flags bitfield. -/
structure Span where
  text : List Char
  size : Rat
  flags : Nat

/-- One line of a layout block: its spans. -/
structure Line where
  spans : List Span

/-- One layout block: `none` models a block without a `"lines"` key
(an image block), which `detect_titles` skips. -/
structure Block where
  lines : Option (List Line)

/-- One page of the layout: its blocks. -/
structure Page where
  blocks : List Block

/-- Span condition of `PDFExtractor.detect_titles`: the stripped text is
truthy (non-empty) and (bold-flag bit 4 set or font size above 12) and
the word count is at most 15. -/
def titleCond (span : Span) : Prop :=
  pyStrip span.text ≠ [] ∧
    (Nat.land span.flags (2 ^ 4) ≠ 0 ∨ (12 : Rat) < span.size) ∧
    (pySplit (pyStrip span.text)).length ≤ 15

instance (span : Span) : Decidable (titleCond span) := by
  unfold titleCond; infer_instance

/-- Innermost loop of `detect_titles`: the spans of one line, appending
each accepted stripped text to the accumulated `titles` list. -/
def detectTitlesSpans : List Span → List (List Char) → List (List Char)
  | [], titles => titles
  | span :: rest, titles =>
    if titleCond span then detectTitlesSpans rest (titles ++ [pyStrip span.text])
    else detectTitlesSpans rest titles

/-- Loop of `detect_titles` over the lines of a block. -/
def detectTitlesLines : List Line → List (List Char) → List (List Char)
  | [], titles => titles
  | line :: rest, titles => detectTitlesLines rest (detectTitlesSpans line.spans titles)

/-- Loop of `detect_titles` over the blocks of a page; a block without
lines is skipped (`if "lines" not in block: continue`). -/
def detectTitlesBlocks : List Block → List (List Char) → List (List Char)
  | [], titles => titles
  | block :: rest, titles =>
    match block.lines with
    | none => detectTitlesBlocks rest titles
    | some ls => detectTitlesBlocks rest (detectTitlesLines ls titles)

/-- Loop of `detect_titles` over the pages of the document. -/
def detectTitlesPages : List Page → List (List Char) → List (List Char)
  | [], titles => titles
  | page :: rest, titles => detectTitlesPages rest (detectTitlesBlocks page.blocks titles)

/-- Embedding of `PDFExtractor.detect_titles` from `src/pdf/extractor.py`
over the spans supplied by the layout collaborator. -/
def detect_titles (pages : List Page) : List (List Char) :=
  detectTitlesPages pages []

/-- All spans of a document in layout traversal order (page, then
block/line/span order), blocks without lines contributing none. -/
def allSpans (pages : List Page) : List Span :=
  (pages.map (fun page =>
    (page.blocks.map (fun block =>
      ((block.lines.getD []).map (fun line => line.spans)).flatten)).flatten)).flatten

/-- Title-candidate rule exactly as the specification words it: a span is
a candidate iff (bold or font size above the threshold) and word count at
most 15 — with no requirement that the span text be non-empty. -/
def claimedTitleCond (span : Span) : Prop :=
  (Nat.land span.flags (2 ^ 4) ≠ 0 ∨ (12 : Rat) < span.size) ∧
    (pySplit (pyStrip span.text)).length ≤ 15

instance (span : Span) : Decidable (claimedTitleCond span) := by
  unfold claimedTitleCond; infer_instance

/-- Title list as claimed by the specification sentence. -/
def detect_titles_claimed (pages : List Page) : List (List Char) :=
  ((allSpans pages).filter (fun span => decide (claimedTitleCond span))).map
    (fun span => pyStrip span.text)

/-- A one-page document with a single whitespace-only bold span. -/
def blankBoldPage : Page :=
  ⟨[⟨some [⟨[⟨"  ".toList, 1, 16⟩]⟩]⟩]⟩

/-- The running `current_length` of the chunk loop for a word list: each
word costs its length plus one joining space. -/
def chunkLen (ws : List (List Char)) : Nat :=
  (ws.map (fun w => w.length + 1)).sum

/-!  Helper lemmas about the splitter, the joiner and the chunk loop. -/

theorem joinSep_cons_of_ne (sep : List Char) (w : List Char) (ws : List (List Char))
    (h : ws ≠ []) : joinSep sep (w :: ws) = w ++ sep ++ joinSep sep ws := by
  cases ws with
  | nil => exact absurd rfl h
  | cons v vs => rfl

theorem joinSep_append (sep : List Char) (xs ys : List (List Char)) (hx : xs ≠ [])
    (hy : ys ≠ []) : joinSep sep (xs ++ ys) = joinSep sep xs ++ sep ++ joinSep sep ys := by
  induction xs with
  | nil => exact absurd rfl hx
  | cons w ws ih =>
    cases ws with
    | nil =>
      cases ys with
      | nil => exact absurd rfl hy
      | cons v vs => simp [joinSep]
    | cons u us =>
      rw [List.cons_append, joinSep_cons_of_ne sep w ((u :: us) ++ ys) (by simp),
        joinSep_cons_of_ne sep w (u :: us) (by simp), ih (by simp)]
      simp

theorem chunkLen_append_singleton (cur : List (List Char)) (w : List Char) :
    chunkLen (cur ++ [w]) = chunkLen cur + (w.length + 1) := by
  simp [chunkLen]

theorem chunkLen_eq_joinSep_length (cur : List (List Char)) (h : cur ≠ []) :
    chunkLen cur = (joinSep [' '] cur).length + 1 := by
  induction cur with
  | nil => exact absurd rfl h
  | cons w ws ih =>
    cases ws with
    | nil => simp [chunkLen, joinSep]
    | cons v vs =>
      rw [joinSep_cons_of_ne _ _ _ (by simp)]
      have h2 := ih (by simp)
      simp only [chunkLen, List.map_cons, List.sum_cons] at h2 ⊢
      simp only [List.length_append, List.length_cons, List.length_nil]
      omega

theorem chunkLoop_ne_nil (L : Nat) (ws cur : List (List Char)) (n : Nat) (h : cur ≠ []) :
    chunkLoop L ws cur n ≠ [] := by
  induction ws generalizing cur n with
  | nil => simp [chunkLoop, h]
  | cons w rest ih =>
    simp only [chunkLoop]
    split
    · simp
    · exact ih (cur ++ [w]) _ (by simp)

theorem chunkLoop_join (L : Nat) (ws : List (List Char)) :
    ∀ cur n, joinSep [' '] (chunkLoop L ws cur n) = joinSep [' '] (cur ++ ws) := by
  induction ws with
  | nil =>
    intro cur n
    simp only [chunkLoop, List.append_nil]
    split
    · simp [joinSep, *]
    · simp [joinSep]
  | cons w rest ih =>
    intro cur n
    simp only [chunkLoop]
    split
    · rename_i hcond
      rw [joinSep_cons_of_ne _ _ _ (chunkLoop_ne_nil L rest [w] _ (by simp)), ih [w] _]
      rw [joinSep_append [' '] cur (w :: rest) hcond.2 (by simp)]
      rfl
    · rw [ih (cur ++ [w]) _, List.append_assoc]
      rfl

theorem chunkLoop_mem_bound (L : Nat) (words0 : List (List Char)) (ws : List (List Char)) :
    ∀ cur n, n = chunkLen cur → (cur.length ≤ 1 ∨ n ≤ L) →
    (∀ w ∈ cur, w ∈ words0) → (∀ w ∈ ws, w ∈ words0) →
    ∀ c ∈ chunkLoop L ws cur n, c.length ≤ L ∨ (c ∈ words0 ∧ L < c.length) := by
  induction ws with
  | nil =>
    intro cur n hn hd hcur _ c hc
    simp only [chunkLoop] at hc
    split at hc
    · simp at hc
    · rename_i hne
      simp only [List.mem_singleton] at hc
      subst hc
      by_cases hlen : (joinSep [' '] cur).length ≤ L
      · exact Or.inl hlen
      · refine Or.inr ⟨?_, by omega⟩
        have h1 : cur.length ≤ 1 := by
          rcases hd with h | h
          · exact h
          · exfalso
            rw [hn, chunkLen_eq_joinSep_length cur hne] at h
            omega
        match cur, hne with
        | [w], _ =>
          have : joinSep [' '] [w] = w := rfl
          rw [this]
          exact hcur w (by simp)
  | cons w rest ih =>
    intro cur n hn hd hcur hws c hc
    simp only [chunkLoop] at hc
    split at hc
    · rename_i hcond
      rcases List.mem_cons.1 hc with hc1 | hc2
      · subst hc1
        by_cases hlen : (joinSep [' '] cur).length ≤ L
        · exact Or.inl hlen
        · refine Or.inr ⟨?_, by omega⟩
          have h1 : cur.length ≤ 1 := by
            rcases hd with h | h
            · exact h
            · exfalso
              rw [hn, chunkLen_eq_joinSep_length cur hcond.2] at h
              omega
          match cur, hcond.2 with
          | [v], _ =>
            have : joinSep [' '] [v] = v := rfl
            rw [this]
            exact hcur v (by simp)
      · exact ih [w] (w.length + 1) (by simp [chunkLen]) (Or.inl (by simp))
          (by intro u hu; simp only [List.mem_singleton] at hu; rw [hu]; exact hws w (by simp))
          (fun u hu => hws u (by simp [hu])) c hc2
    · rename_i hcond
      refine ih (cur ++ [w]) (n + (w.length + 1))
        (by rw [chunkLen_append_singleton, hn]) ?_
        (by intro u hu
            rcases List.mem_append.1 hu with h | h
            · exact hcur u h
            · simp only [List.mem_singleton] at h; rw [h]; exact hws w (by simp))
        (fun u hu => hws u (by simp [hu])) c hc
      rw [not_and_or] at hcond
      rcases hcond with h | h
      · exact Or.inr (by omega)
      · simp only [ne_eq, not_not] at h
        subst h
        simp only [List.nil_append, List.length_singleton]
        exact Or.inl le_rfl

theorem chunkLoop_mem_ne_nil (L : Nat) (ws : List (List Char)) :
    ∀ cur n, (∀ w ∈ cur, w ≠ []) → (∀ w ∈ ws, w ≠ []) →
    ∀ c ∈ chunkLoop L ws cur n, c ≠ [] := by
  induction ws with
  | nil =>
    intro cur n hcur _ c hc
    simp only [chunkLoop] at hc
    split at hc
    · simp at hc
    · rename_i hne
      simp only [List.mem_singleton] at hc
      subst hc
      match cur, hne with
      | w :: vs, _ =>
        have hw := hcur w (by simp)
        cases vs with
        | nil => simpa [joinSep] using hw
        | cons v vs' =>
          rw [joinSep_cons_of_ne _ _ _ (by simp)]
          simp [hw]
  | cons w rest ih =>
    intro cur n hcur hws c hc
    simp only [chunkLoop] at hc
    split at hc
    · rename_i hcond
      rcases List.mem_cons.1 hc with hc1 | hc2
      · subst hc1
        match cur, hcond.2 with
        | v :: vs, _ =>
          have hv := hcur v (by simp)
          cases vs with
          | nil => simpa [joinSep] using hv
          | cons u us =>
            rw [joinSep_cons_of_ne _ _ _ (by simp)]
            simp [hv]
      · exact ih [w] _ (by intro u hu; simp only [List.mem_singleton] at hu; rw [hu]; exact hws w (by simp))
          (fun u hu => hws u (by simp [hu])) c hc2
    · exact ih (cur ++ [w]) _
        (by intro u hu
            rcases List.mem_append.1 hu with h | h
            · exact hcur u h
            · simp only [List.mem_singleton] at h; rw [h]; exact hws w (by simp))
        (fun u hu => hws u (by simp [hu])) c hc

theorem splitSepCore_chars (p : Char → Bool) (s : List Char) :
    (∀ c ∈ (splitSepCore p s).1, p c = true ∧ c ∈ s) ∧
    (∀ w ∈ (splitSepCore p s).2, w ≠ [] ∧ ∀ c ∈ w, p c = true ∧ c ∈ s) := by
  induction s with
  | nil => simp [splitSepCore]
  | cons a as ih =>
    simp only [splitSepCore]
    split
    · rename_i hp
      constructor
      · intro c hc
        rcases List.mem_cons.1 hc with h | h
        · rw [h]; exact ⟨hp, by simp⟩
        · have h2 := ih.1 c h
          exact ⟨h2.1, by simp [h2.2]⟩
      · intro w hw
        have h2 := ih.2 w hw
        exact ⟨h2.1, fun c hc => ⟨(h2.2 c hc).1, by simp [(h2.2 c hc).2]⟩⟩
    · refine ⟨by intro c hc; simp at hc, ?_⟩
      intro w hw
      split at hw
      · have h2 := ih.2 w hw
        exact ⟨h2.1, fun c hc => ⟨(h2.2 c hc).1, by simp [(h2.2 c hc).2]⟩⟩
      · rcases List.mem_cons.1 hw with h | h
        · rename_i hne
          subst h
          refine ⟨hne, fun c hc => ?_⟩
          have h2 := ih.1 c hc
          exact ⟨h2.1, by simp [h2.2]⟩
        · have h2 := ih.2 w h
          exact ⟨h2.1, fun c hc => ⟨(h2.2 c hc).1, by simp [(h2.2 c hc).2]⟩⟩

theorem splitSep_chars (p : Char → Bool) (s : List Char) :
    ∀ w ∈ splitSep p s, w ≠ [] ∧ ∀ c ∈ w, p c = true ∧ c ∈ s := by
  intro w hw
  simp only [splitSep] at hw
  split at hw
  · exact (splitSepCore_chars p s).2 w hw
  · rcases List.mem_cons.1 hw with h | h
    · rename_i hne
      subst h
      exact ⟨hne, fun c hc => (splitSepCore_chars p s).1 c hc⟩
    · exact (splitSepCore_chars p s).2 w h

theorem splitSepCore_of_none (q : Char → Bool) (s : List Char) (h : ∀ c ∈ s, q c = false) :
    splitSepCore q s = ([], []) := by
  induction s with
  | nil => rfl
  | cons a as ih =>
    have ha := h a (by simp)
    have ih2 := ih (fun c hc => h c (by simp [hc]))
    simp [splitSepCore, ih2, ha]

theorem splitSep_of_none (q : Char → Bool) (s : List Char) (h : ∀ c ∈ s, q c = false) :
    splitSep q s = [] := by
  simp [splitSep, splitSepCore_of_none q s h]

/-- C1: for every text and every `max_length ≥ 1`, every chunk returned by
`split_into_chunks text max_length` has character length at most
`max_length`, except a chunk that is a single word of `text.split()` whose
own length exceeds `max_length`: that word becomes its own oversized chunk
and is never split mid-word. -/
theorem chunk_length_bound (text : List Char) (max_length : Nat) (h : 1 ≤ max_length) :
    ∀ c ∈ split_into_chunks text max_length,
      c.length ≤ max_length ∨ (c ∈ pySplit text ∧ max_length < c.length) :=
  fun c hc =>
    chunkLoop_mem_bound max_length (pySplit text) (pySplit text) [] 0 rfl
      (Or.inl (by simp)) (by simp) (fun _ hw => hw) c hc

theorem chunk_length_bound_witness :
    1 ≤ 3 ∧ ∀ c ∈ split_into_chunks "aaaa bb".toList 3,
      c.length ≤ 3 ∨ (c ∈ pySplit "aaaa bb".toList ∧ 3 < c.length) :=
  ⟨by decide, chunk_length_bound "aaaa bb".toList 3 (by decide)⟩

/-- C2: for every text and every `max_length`, joining the chunks returned
by `split_into_chunks text max_length` with single spaces equals joining
`text.split()` with single spaces: the chunk sequence reproduces the
word-split input exactly, losing no word and preserving word order. -/
theorem chunks_reconstruction (text : List Char) (max_length : Nat) :
    joinSep [' '] (split_into_chunks text max_length) = joinSep [' '] (pySplit text) := by
  unfold split_into_chunks
  rw [chunkLoop_join]
  rfl

/-- C10: `split_into_chunks` never emits an empty chunk, and on an empty or
whitespace-only input it returns the empty list. -/
theorem chunks_nonempty (text : List Char) (max_length : Nat) :
    (∀ c ∈ split_into_chunks text max_length, c ≠ []) ∧
    ((∀ ch ∈ text, isPySpace ch = true) → split_into_chunks text max_length = []) := by
  constructor
  · intro c hc
    refine chunkLoop_mem_ne_nil max_length (pySplit text) [] 0 (by simp) ?_ c hc
    intro w hw
    exact (splitSep_chars _ _ w hw).1
  · intro hsp
    have h0 : pySplit text = [] :=
      splitSep_of_none _ _ (fun c hcs => by simp [hsp c hcs])
    unfold split_into_chunks
    rw [h0]
    rfl

theorem chunks_nonempty_witness : split_into_chunks "   ".toList 7 = [] :=
  (chunks_nonempty "   ".toList 7).2 (by decide)

theorem splitSepCore_reSubSep (p q : Char → Bool) (hpq : ∀ c, p c = true → q c = true)
    (hq : q ' ' = false) : ∀ s, splitSepCore q (reSubSep p s) = splitSepCore p s := by
  intro s
  induction s with
  | nil => rfl
  | cons c cs ih =>
    cases cs with
    | nil =>
      by_cases hp : p c = true
      · simp [reSubSep, hp, splitSepCore, hpq c hp]
      · simp [reSubSep, hp, splitSepCore, hq]
    | cons d cs2 =>
      by_cases hp : p c = true
      · simp only [reSubSep, if_pos hp, splitSepCore, ih, hpq c hp, if_pos, hp]
      · by_cases hd : p d = true
        · simp only [reSubSep, if_neg hp, if_pos hd, splitSepCore, ih, hq, if_neg, Bool.false_eq_true,
            not_false_eq_true]
        · simp only [reSubSep, if_neg hp, if_neg hd]
          rw [ih]
          have h1 : (splitSepCore p (d :: cs2)).1 = [] := by
            simp [splitSepCore, hd]
          conv_rhs => rw [splitSepCore]
          simp only [if_neg hp, h1, if_pos]
          exact Prod.ext h1 rfl

theorem splitSep_reSubSep (p q : Char → Bool) (hpq : ∀ c, p c = true → q c = true)
    (hq : q ' ' = false) (s : List Char) : splitSep q (reSubSep p s) = splitSep p s := by
  simp only [splitSep, splitSepCore_reSubSep p q hpq hq s]

theorem splitSepCore_append (p : Char → Bool) (w t : List Char) (h : ∀ c ∈ w, p c = true) :
    splitSepCore p (w ++ t) = (w ++ (splitSepCore p t).1, (splitSepCore p t).2) := by
  induction w with
  | nil => simp
  | cons a as ih =>
    have ha := h a (by simp)
    have ih2 := ih (fun c hc => h c (by simp [hc]))
    simp [splitSepCore, ih2, ha]

theorem splitSepCore_joinSep (p : Char → Bool) (hsp : p ' ' = false) :
    ∀ (ws : List (List Char)) (w : List Char),
      (∀ u ∈ w :: ws, u ≠ [] ∧ ∀ c ∈ u, p c = true) →
      splitSepCore p (joinSep [' '] (w :: ws)) = (w, splitSep p (joinSep [' '] ws)) := by
  intro ws
  induction ws with
  | nil =>
    intro w h
    have h2 := splitSepCore_append p w [] (fun c hc => (h w (by simp)).2 c hc)
    simpa [joinSep, splitSepCore, splitSep] using h2
  | cons v vs ih =>
    intro w h
    rw [joinSep_cons_of_ne _ _ _ (by simp), List.append_assoc]
    simp only [List.singleton_append]
    rw [splitSepCore_append p w (' ' :: joinSep [' '] (v :: vs))
        (fun c hc => (h w (by simp)).2 c hc)]
    have hih := ih v (fun u hu => h u (by simp [hu]))
    have hv : v ≠ [] := (h v (by simp)).1
    conv_lhs => rw [splitSepCore]
    simp only [hsp, Bool.false_eq_true, if_false, hih]
    refine Prod.ext (by simp) ?_
    simp only [splitSep, hih, if_neg hv]

theorem splitSep_joinSep (p : Char → Bool) (hsp : p ' ' = false) (ws : List (List Char))
    (h : ∀ u ∈ ws, u ≠ [] ∧ ∀ c ∈ u, p c = true) :
    splitSep p (joinSep [' '] ws) = ws := by
  induction ws with
  | nil => simp [joinSep, splitSep, splitSepCore]
  | cons w ws2 ih =>
    have hc := splitSepCore_joinSep p hsp ws2 w h
    have hw := (h w (by simp)).1
    unfold splitSep
    rw [hc]
    simp [hw, ih (fun u hu => h u (by simp [hu]))]

theorem joinSep_mem (sep : List Char) (ws : List (List Char)) (c : Char)
    (hc : c ∈ joinSep sep ws) : c ∈ sep ∨ ∃ w ∈ ws, c ∈ w := by
  induction ws with
  | nil => simp [joinSep] at hc
  | cons w ws2 ih =>
    cases ws2 with
    | nil => exact Or.inr ⟨w, by simp, by simpa [joinSep] using hc⟩
    | cons v vs =>
      rw [joinSep_cons_of_ne _ _ _ (by simp)] at hc
      simp only [List.append_assoc, List.mem_append] at hc
      rcases hc with h1 | h2 | h3
      · exact Or.inr ⟨w, by simp, h1⟩
      · exact Or.inl h2
      · rcases ih h3 with h | ⟨u, hu, hcu⟩
        · exact Or.inl h
        · exact Or.inr ⟨u, by simp [hu], hcu⟩

theorem map_self_of_fixed {α : Type} (f : α → α) (l : List α) (h : ∀ a ∈ l, f a = a) :
    l.map f = l := by
  induction l with
  | nil => rfl
  | cons a as ih => simp [h a (by simp), ih (fun b hb => h b (by simp [hb]))]

theorem lookup_mem {β : Type} (l : List (Nat × β)) (a : Nat) (v : β)
    (h : List.lookup a l = some v) : (a, v) ∈ l := by
  induction l with
  | nil => simp [List.lookup] at h
  | cons p ps ih =>
    rw [List.lookup] at h
    split at h
    · rename_i heq
      have : a = p.1 := eq_of_beq heq
      cases p with
      | mk k b =>
        simp only [Option.some.injEq] at h
        simp [← h, this]
    · exact List.mem_cons_of_mem _ (ih h)

theorem nfkdTable_closed : ∀ p ∈ nfkdTable, ∀ m ∈ p.2,
    (Char.ofNat m).toNat = m ∧ List.lookup m nfkdTable = none := by
  decide

theorem nfkdChar_fixed_mem (d c : Char) (h : c ∈ nfkdChar d) : nfkdFixed c = true := by
  unfold nfkdChar at h
  split at h
  · rename_i ns hns
    rcases List.mem_map.1 h with ⟨m, hm, rfl⟩
    have hmem := lookup_mem nfkdTable d.toNat ns hns
    have h2 := nfkdTable_closed (d.toNat, ns) hmem m hm
    simp [nfkdFixed, h2.1, h2.2]
  · rename_i hnone
    simp only [List.mem_singleton] at h
    subst h
    simp [nfkdFixed, hnone]

theorem nfkdChar_of_fixed (c : Char) (h : nfkdFixed c = true) : nfkdChar c = [c] := by
  unfold nfkdFixed at h
  unfold nfkdChar
  split
  · rename_i ns hns
    rw [hns] at h
    simp at h
  · rfl

theorem normalize_unicode_of_fixed (s : List Char) (h : ∀ c ∈ s, nfkdFixed c = true) :
    normalize_unicode s = s := by
  induction s with
  | nil => rfl
  | cons a as ih =>
    have ha := nfkdChar_of_fixed a (h a (by simp))
    have ih2 := ih (fun c hc => h c (by simp [hc]))
    simp only [normalize_unicode, List.map_cons, List.flatten_cons, ha] at *
    simp [ih2]

theorem mem_normalize_unicode (s : List Char) (c : Char) (h : c ∈ normalize_unicode s) :
    ∃ d ∈ s, c ∈ nfkdChar d := by
  simp only [normalize_unicode, List.mem_flatten, List.mem_map] at h
  rcases h with ⟨l, ⟨d, hd, rfl⟩, hc⟩
  exact ⟨d, hd, hc⟩

theorem allowedNat_lt (kn : Bool) (n : Nat) (h : allowedNat kn n = true) : n < 256 := by
  simp only [allowedNat, Bool.or_eq_true, Bool.and_eq_true, decide_eq_true_eq] at h
  rcases h with ((((h | h) | h) | h) | h) | h <;> omega

set_option synthInstance.maxSize 400 in
set_option maxRecDepth 4000 in
theorem charFacts : ∀ (kn : Bool) (n : Nat), n < 256 → allowedNat kn n = true →
    isPySpaceNat n = false ∧
    allowedNat kn (if upperNat n then n + 0x20 else n) = true ∧
    upperNat (if upperNat n then n + 0x20 else n) = false ∧
    (List.lookup n nfkdTable = none →
      List.lookup (if upperNat n then n + 0x20 else n) nfkdTable = none) := by
  decide

theorem lowerChar_toNat (c : Char) :
    (lowerChar c).toNat = if upperNat c.toNat then c.toNat + 0x20 else c.toNat := by
  unfold lowerChar
  split
  · rename_i h
    have hle : c.toNat ≤ 0xDE := by
      simp only [upperNat, Bool.or_eq_true, Bool.and_eq_true, decide_eq_true_eq] at h
      omega
    have hv : (c.toNat + 0x20).isValidChar := Or.inl (by omega)
    rw [Char.ofNat, dif_pos hv]
    simp [Char.ofNatAux, Char.toNat, UInt32.toNat]
  · rfl

theorem allowed_char_facts (kn : Bool) (c : Char) (h : allowedChar kn c = true) :
    isPySpace c = false ∧ allowedChar kn (lowerChar c) = true ∧
    lowerChar (lowerChar c) = lowerChar c ∧
    (nfkdFixed c = true → nfkdFixed (lowerChar c) = true) := by
  have hlt := allowedNat_lt kn c.toNat h
  have hf := charFacts kn c.toNat hlt h
  have ht := lowerChar_toNat c
  refine ⟨hf.1, ?_, ?_, ?_⟩
  · unfold allowedChar
    rw [ht]
    exact hf.2.1
  · conv_lhs => rw [lowerChar]
    rw [ht, hf.2.2.1]
    simp
  · intro hfix
    have h0 : List.lookup c.toNat nfkdTable = none := by
      simpa [nfkdFixed, Option.isNone_iff_eq_none] using hfix
    have h1 := hf.2.2.2 h0
    simp [nfkdFixed, Option.isNone_iff_eq_none, ht, h1]

theorem hyphenScan_subset (fuel : Nat) :
    ∀ (s : List Char) (a : Char), a ∈ hyphenScan fuel s → a ∈ s := by
  induction fuel with
  | zero => intro s a ha; simpa [hyphenScan] using ha
  | succ fuel ih =>
    intro s a ha
    match s with
    | [] => simpa [hyphenScan] using ha
    | c :: cs =>
      simp only [hyphenScan] at ha
      split at ha
      · split at ha
        · rename_i hw r2 hr
          split at ha
          · have hsub1 : List.Sublist ('-' :: r2) (c :: cs) :=
              hr ▸ List.dropWhile_sublist isWordChar
            have hsub2 : List.Sublist r2 (c :: cs) :=
              (List.sublist_cons_self '-' r2).trans hsub1
            simp only [List.append_assoc, List.mem_append] at ha
            rcases ha with h1 | h2 | h3
            · exact (List.takeWhile_sublist _).mem h1
            · exact hsub2.mem
                (((List.takeWhile_sublist _).trans (List.dropWhile_sublist _)).mem h2)
            · exact hsub2.mem
                (((List.dropWhile_sublist isWordChar).trans (List.dropWhile_sublist _)).mem
                  (ih _ _ h3))
          · have hsub1 : List.Sublist ('-' :: r2) (c :: cs) :=
              hr ▸ List.dropWhile_sublist isWordChar
            simp only [List.mem_append, List.mem_cons] at ha
            rcases ha with h1 | h2 | h3
            · exact (List.takeWhile_sublist _).mem h1
            · exact hsub1.mem (by simp [h2])
            · exact hsub1.mem (by simp [(List.sublist_cons_self '-' r2).mem (ih _ _ h3)])
        · simp only [List.mem_append] at ha
          rcases ha with h1 | h2
          · exact (List.takeWhile_sublist _).mem h1
          · exact (List.dropWhile_sublist isWordChar).mem (ih _ _ h2)
      · rcases List.mem_cons.1 ha with h1 | h2
        · simp [h1]
        · simp [ih _ _ h2]

theorem hyphenfix_subset (s : List Char) : ∀ c ∈ remove_line_breaks_hyphens s, c ∈ s :=
  fun c hc => hyphenScan_subset s.length s c hc

theorem hyphenScan_of_no_newline (fuel : Nat) :
    ∀ (s : List Char), '\n' ∉ s → hyphenScan fuel s = s := by
  induction fuel with
  | zero => intro s _; rfl
  | succ fuel ih =>
    intro s h
    match s with
    | [] => rfl
    | c :: cs =>
      simp only [hyphenScan]
      split
      · split
        · rename_i hw r2 hr
          have hsub1 : List.Sublist ('-' :: r2) (c :: cs) :=
            hr ▸ List.dropWhile_sublist isWordChar
          have hsub2 : List.Sublist r2 (c :: cs) :=
            (List.sublist_cons_self '-' r2).trans hsub1
          split
          · rename_i hcond
            exact absurd (hsub2.mem ((List.takeWhile_sublist _).mem hcond.1)) h
          · rw [ih r2 (fun hmem => h (hsub2.mem hmem))]
            conv_rhs => rw [← List.takeWhile_append_dropWhile (p := isWordChar) (l := c :: cs)]
            rw [hr]
        · rw [ih _ (fun hmem => h ((List.dropWhile_sublist isWordChar).mem hmem))]
          exact List.takeWhile_append_dropWhile _ _
      · rw [ih cs (fun hmem => h (by simp [hmem]))]

theorem hyphenfix_of_no_newline (s : List Char) (h : '\n' ∉ s) :
    remove_line_breaks_hyphens s = s :=
  hyphenScan_of_no_newline s.length s h

theorem tokenize_eq_splitSep (text : List Char) (kn ac : Bool) :
    tokenize text kn ac =
      (splitSep (allowedChar kn)
        (if ac then remove_line_breaks_hyphens (normalize_unicode text) else text)).map
        (fun w => w.map lowerChar) := by
  simp only [tokenize, pySplit]
  rw [splitSep_reSubSep (allowedChar kn) (fun c => !isPySpace c)
      (fun c hc => by simp [(allowed_char_facts kn c hc).1])
      (by decide)]
  congr 1
  refine List.filter_eq_self.2 ?_
  intro w hw
  simpa [List.isEmpty_iff] using (splitSep_chars _ _ w hw).1

theorem tokenize_sound (text : List Char) (kn ac : Bool) :
    ∀ w ∈ tokenize text kn ac, w ≠ [] ∧ ∀ c ∈ w,
      allowedChar kn c = true ∧ lowerChar c = c ∧ (ac = true → nfkdFixed c = true) := by
  intro w hw
  rw [tokenize_eq_splitSep] at hw
  rcases List.mem_map.1 hw with ⟨w0, hw0, rfl⟩
  have h0 := splitSep_chars _ _ w0 hw0
  refine ⟨by simpa using h0.1, ?_⟩
  intro c hc
  rcases List.mem_map.1 hc with ⟨c0, hc0, rfl⟩
  have hall := (h0.2 c0 hc0).1
  have hmem := (h0.2 c0 hc0).2
  have hf := allowed_char_facts kn c0 hall
  refine ⟨hf.2.1, hf.2.2.1, ?_⟩
  intro hac
  subst hac
  simp only [if_pos rfl] at hmem
  have h1 : c0 ∈ normalize_unicode text := hyphenfix_subset _ c0 hmem
  rcases mem_normalize_unicode _ c0 h1 with ⟨d, _, hcd⟩
  exact hf.2.2.2 (nfkdChar_fixed_mem d c0 hcd)

theorem tokenize_rejoin (kn ac : Bool) (ws : List (List Char))
    (h : ∀ w ∈ ws, w ≠ [] ∧ ∀ c ∈ w, allowedChar kn c = true ∧ lowerChar c = c ∧
      (ac = true → nfkdFixed c = true)) :
    tokenize (joinSep [' '] ws) kn ac = ws := by
  have hsp : allowedChar kn ' ' = false := by cases kn <;> decide
  have hclean : (if ac then remove_line_breaks_hyphens (normalize_unicode (joinSep [' '] ws))
      else joinSep [' '] ws) = joinSep [' '] ws := by
    cases ac with
    | false => rfl
    | true =>
      simp only [if_pos rfl]
      have hnf : normalize_unicode (joinSep [' '] ws) = joinSep [' '] ws := by
        refine normalize_unicode_of_fixed _ (fun c hc => ?_)
        rcases joinSep_mem _ _ c hc with h1 | ⟨w, hw, hcw⟩
        · simp only [List.mem_singleton] at h1
          subst h1
          decide
        · exact ((h w hw).2 c hcw).2.2 rfl
      rw [hnf]
      refine hyphenfix_of_no_newline _ (fun hmem => ?_)
      rcases joinSep_mem _ _ _ hmem with h1 | ⟨w, hw, hcw⟩
      · simp at h1
      · have h2 := ((h w hw).2 _ hcw).1
        have h3 : isPySpace '\n' = true := by decide
        rw [(allowed_char_facts kn _ h2).1] at h3
        exact Bool.false_ne_true h3
  rw [tokenize_eq_splitSep, hclean,
    splitSep_joinSep (allowedChar kn) hsp ws
      (fun u hu => ⟨(h u hu).1, fun c hc => ((h u hu).2 c hc).1⟩)]
  exact map_self_of_fixed _ ws
    (fun w hw => map_self_of_fixed _ w (fun c hc => ((h w hw).2 c hc).2.1))

/-- C5: tokenization is idempotent: for every text and both flags,
tokenizing the space-joined output of `tokenize` with the same flags
yields exactly the token sequence of the original text. -/
theorem tokenize_idempotent (text : List Char) (keep_numbers advanced_clean : Bool) :
    tokenize (joinSep [' '] (tokenize text keep_numbers advanced_clean))
      keep_numbers advanced_clean = tokenize text keep_numbers advanced_clean :=
  tokenize_rejoin keep_numbers advanced_clean _ (tokenize_sound text keep_numbers advanced_clean)

/-- C6: for every text and the same `keep_numbers` flag, the vocabulary
size (number of distinct tokens) never exceeds the total token count. -/
theorem vocabulary_le_count (text : List Char) (keep_numbers : Bool) :
    get_vocabulary_size text keep_numbers ≤ count_words text keep_numbers := by
  unfold get_vocabulary_size count_words
  exact (List.dedup_sublist _).length_le

/-- C9: every token returned by `tokenize` is non-empty, entirely
lowercase (fixed by lowering), and made only of characters of the
permitted alphabet — Latin letters including the accented Latin-1 ranges,
plus digits exactly when `keep_numbers` is true (`allowedChar` is the
filter's alphabet: digits pass it only under `keep_numbers`, and every
character outside it acts as a separator). -/
theorem tokenize_alphabet (text : List Char) (keep_numbers advanced_clean : Bool) :
    ∀ w ∈ tokenize text keep_numbers advanced_clean, w ≠ [] ∧ ∀ c ∈ w,
      allowedChar keep_numbers c = true ∧ lowerChar c = c :=
  fun w hw =>
    ⟨(tokenize_sound text keep_numbers advanced_clean w hw).1,
     fun c hc =>
      ⟨((tokenize_sound text keep_numbers advanced_clean w hw).2 c hc).1,
       ((tokenize_sound text keep_numbers advanced_clean w hw).2 c hc).2.1⟩⟩

theorem tokenize_alphabet_witness :
    "ola".toList ≠ [] ∧ ∀ c ∈ "ola".toList,
      allowedChar false c = true ∧ lowerChar c = c :=
  tokenize_alphabet "Olá!".toList false true "ola".toList (by decide)

theorem mem_firstDedup (l : List (List Char)) (a : List Char) :
    a ∈ firstDedup l ↔ a ∈ l := by
  induction l with
  | nil => simp [firstDedup]
  | cons w ws ih =>
    simp only [firstDedup, List.mem_cons, List.mem_filter, decide_eq_true_eq, ih]
    constructor
    · rintro (rfl | ⟨h, _⟩)
      · exact Or.inl rfl
      · exact Or.inr h
    · rintro (rfl | h)
      · exact Or.inl rfl
      · by_cases hw : a = w
        · exact Or.inl hw
        · exact Or.inr ⟨h, hw⟩

theorem nodup_firstDedup (l : List (List Char)) : (firstDedup l).Nodup := by
  induction l with
  | nil => simp [firstDedup]
  | cons w ws ih =>
    simp only [firstDedup, List.nodup_cons]
    refine ⟨?_, ih.filter _⟩
    intro hmem
    have h2 := (List.mem_filter.1 hmem).2
    simp at h2

theorem sum_map_filter_ne (f : List Char → Nat) (d : List (List Char)) (hd : d.Nodup)
    (w : List Char) :
    ((d.filter (fun v => decide (v ≠ w))).map f).sum + (if w ∈ d then f w else 0) =
      (d.map f).sum := by
  induction d with
  | nil => simp
  | cons a d2 ih =>
    have hnd := List.nodup_cons.1 hd
    by_cases haw : a = w
    · subst haw
      rw [List.filter_cons_of_neg (by simp), if_pos (by simp)]
      have hfe : d2.filter (fun v => decide (v ≠ a)) = d2 :=
        List.filter_eq_self.2 (fun v hv => by
          simp only [decide_eq_true_eq]
          intro hva
          exact hnd.1 (hva ▸ hv))
      rw [hfe]
      simp [Nat.add_comm]
    · rw [List.filter_cons_of_pos (by simp [Ne.symm]; exact haw)]
      have hiw : (if w ∈ a :: d2 then f w else 0) = (if w ∈ d2 then f w else 0) := by
        by_cases hw2 : w ∈ d2
        · rw [if_pos (by simp [hw2]), if_pos hw2]
        · have hno : ¬ w ∈ a :: d2 := by
            simp only [List.mem_cons]
            rintro (rfl | hx)
            · exact haw rfl
            · exact hw2 hx
          rw [if_neg hno, if_neg hw2]
      rw [hiw]
      have ih2 := ih hnd.2
      simp only [List.map_cons, List.sum_cons]
      omega

theorem sum_counts_firstDedup (l : List (List Char)) :
    ((firstDedup l).map (fun w => l.count w)).sum = l.length := by
  induction l with
  | nil => rfl
  | cons w ws ih =>
    simp only [firstDedup, List.map_cons, List.sum_cons]
    have hmapeq : ((firstDedup ws).filter (fun v => decide (v ≠ w))).map
          (fun v => (w :: ws).count v)
        = ((firstDedup ws).filter (fun v => decide (v ≠ w))).map (fun v => ws.count v) := by
      apply List.map_congr_left
      intro v hv
      have hvw : v ≠ w := by simpa using (List.mem_filter.1 hv).2
      have hb : (w == v) = false := by
        simp only [beq_eq_false_iff_ne, ne_eq]
        exact fun hx => hvw hx.symm
      rw [List.count_cons, hb]
      simp
    rw [hmapeq]
    have hcw : (w :: ws).count w = ws.count w + 1 := by simp [List.count_cons]
    rw [hcw]
    have hfil := sum_map_filter_ne (fun v => ws.count v) (firstDedup ws)
      (nodup_firstDedup ws) w
    simp only [] at hfil
    have hX : (if w ∈ firstDedup ws then ws.count w else 0) = ws.count w := by
      by_cases hmem : w ∈ ws
      · simp [mem_firstDedup, hmem]
      · simp [mem_firstDedup, hmem, List.count_eq_zero.2 hmem]
    rw [hX] at hfil
    simp only [List.length_cons]
    omega

theorem counterItems_snd_sum (tokens : List (List Char)) :
    ((counterItems tokens).map Prod.snd).sum = tokens.length := by
  unfold counterItems
  rw [List.map_map]
  exact sum_counts_firstDedup tokens

theorem counterItems_length (tokens : List (List Char)) :
    (counterItems tokens).length = tokens.dedup.length := by
  unfold counterItems
  rw [List.length_map]
  exact List.Perm.length_eq
    ((List.perm_ext_iff_of_nodup (nodup_firstDedup tokens) (List.nodup_dedup tokens)).2
      (fun a => by rw [mem_firstDedup]; exact List.mem_dedup.symm))

/-- C7: with `remove_stopwords = False` and `n` at least the number of
distinct tokens, the sum of all frequencies returned by
`get_most_common_words` equals `count_words` of the text. -/
theorem most_common_sum (stop_words : List (List Char)) (text : List Char)
    (keep_numbers : Bool) (n : Nat) (h : get_vocabulary_size text keep_numbers ≤ n) :
    ((get_most_common_words stop_words text n false keep_numbers).map Prod.snd).sum =
      count_words text keep_numbers := by
  unfold get_vocabulary_size at h
  unfold get_most_common_words count_words
  simp only [if_neg Bool.false_ne_true]
  rw [List.take_of_length_le (by rw [List.length_mergeSort, counterItems_length]; exact h)]
  rw [((List.mergeSort_perm (counterItems (tokenize text keep_numbers true)) _).map
    Prod.snd).sum_eq]
  exact counterItems_snd_sum _

theorem most_common_sum_witness :
    get_vocabulary_size "b a b".toList false ≤ 3 ∧
    ((get_most_common_words [] "b a b".toList 3 false false).map Prod.snd).sum =
      count_words "b a b".toList false :=
  ⟨by decide, most_common_sum [] "b a b".toList false 3 (by decide)⟩

theorem runChunks_ok (g : GenRequest → List Char) (det : Bool) (cs : List (List Char)) :
    runChunks (fun q => (Except.ok (g q) : Except Unit (List Char))) det cs =
      (Except.ok (cs.map (fun c => g ⟨chunkPrompt c, 200, 30, det⟩)),
       cs.map (fun c => (⟨chunkPrompt c, 200, 30, det⟩ : GenRequest))) := by
  induction cs with
  | nil => rfl
  | cons c rest ih => simp [runChunks, ih, Except.map]

/-- C3: `Summarizer.summarize` branches on `len(text) > 3000`.  On the
map-reduce path it issues one chunk-summary request per chunk for at most
the first 5 chunks of `split_into_chunks(text, 1000)` (each bounded to
min 30 / max 200), followed by exactly one consolidation request over the
space-joined chunk summaries bounded to min 100 / max
`max_summary_length`; on the direct path it issues exactly one request
embedding only the first 2000 characters of the text, bounded to min 50 /
max `max_summary_length`. -/
theorem summarize_requests (g : GenRequest → List Char) (text : List Char)
    (max_summary_length : Nat) (det : Bool) :
    (summarize (fun q => (Except.ok (g q) : Except Unit (List Char))) text
        max_summary_length det).2 =
      if 3000 < text.length then
        ((split_into_chunks text 1000).take 5).map
            (fun c => (⟨chunkPrompt c, 200, 30, det⟩ : GenRequest)) ++
          [⟨consolidationPrompt (joinSep [' ']
              (((split_into_chunks text 1000).take 5).map
                (fun c => g ⟨chunkPrompt c, 200, 30, det⟩))),
            max_summary_length, 100, det⟩]
      else
        [⟨directPrompt (text.take 2000), max_summary_length, 50, det⟩] := by
  unfold summarize
  split
  · simp [runChunks_ok g det ((split_into_chunks text 1000).take 5)]
  · rfl

/-- C4: evidence for the resource-release bug.  `_run_summarization` in
`src/main.py` calls `summarizer.cleanup()` in straight line after
`summarizer.summarize(...)`, with no `try`/`finally`; when the model
invocation raises, the exception propagates to `main`'s handler and
`cleanup()` — the explicit model release the specification requires on
every exit path — is never executed. -/
theorem run_summarization_skips_cleanup_on_error :
    (run_summarization failingGen "abc".toList false).2 = false := by
  rfl

theorem detectTitlesSpans_eq (spans : List Span) (acc : List (List Char)) :
    detectTitlesSpans spans acc =
      acc ++ (spans.filter (fun s => decide (titleCond s))).map (fun s => pyStrip s.text) := by
  induction spans generalizing acc with
  | nil => simp [detectTitlesSpans]
  | cons sp rest ih =>
    simp only [detectTitlesSpans]
    split
    · rename_i hcond
      rw [ih, List.filter_cons_of_pos (by simpa using hcond)]
      simp
    · rename_i hcond
      rw [ih, List.filter_cons_of_neg (by simpa using hcond)]

theorem detectTitlesLines_eq (ls : List Line) (acc : List (List Char)) :
    detectTitlesLines ls acc =
      acc ++ (((ls.map (fun line => line.spans)).flatten).filter
        (fun s => decide (titleCond s))).map (fun s => pyStrip s.text) := by
  induction ls generalizing acc with
  | nil => simp [detectTitlesLines]
  | cons l rest ih =>
    simp only [detectTitlesLines, List.map_cons, List.flatten_cons]
    rw [ih, detectTitlesSpans_eq]
    simp [List.filter_append]

theorem detectTitlesBlocks_eq (bs : List Block) (acc : List (List Char)) :
    detectTitlesBlocks bs acc =
      acc ++ (((bs.map (fun block =>
          ((block.lines.getD []).map (fun line => line.spans)).flatten)).flatten).filter
        (fun s => decide (titleCond s))).map (fun s => pyStrip s.text) := by
  induction bs generalizing acc with
  | nil => simp [detectTitlesBlocks]
  | cons b rest ih =>
    simp only [detectTitlesBlocks, List.map_cons, List.flatten_cons]
    cases hb : b.lines with
    | none =>
      dsimp only
      rw [ih]
      simp
    | some ls =>
      dsimp only
      rw [ih, detectTitlesLines_eq]
      simp [List.filter_append]

theorem detectTitlesPages_eq (ps : List Page) (acc : List (List Char)) :
    detectTitlesPages ps acc =
      acc ++ ((allSpans ps).filter
        (fun s => decide (titleCond s))).map (fun s => pyStrip s.text) := by
  induction ps generalizing acc with
  | nil => simp [detectTitlesPages, allSpans]
  | cons p rest ih =>
    simp only [detectTitlesPages, allSpans, List.map_cons, List.flatten_cons]
    rw [ih, detectTitlesBlocks_eq]
    simp only [allSpans] at *
    simp [List.filter_append]

/-- C8 counterexample: a whitespace-only bold span.  The specification's
rule — candidate iff (bold or large) and word count at most 15 — admits
it (word count 0), but `detect_titles` excludes it: the code additionally
requires the stripped span text to be truthy (non-empty). -/
theorem detect_titles_claim_false :
    detect_titles [blankBoldPage] ≠ detect_titles_claimed [blankBoldPage] := by
  decide

/-- C8 amended: a span of the layout traversal becomes a title candidate
iff its stripped text is non-empty and (its bold-flag bit is set or its
font size exceeds 12) and its word count is at most 15; the candidates are
the stripped span texts in layout traversal order, with no
deduplication. -/
theorem detect_titles_characterization (pages : List Page) :
    detect_titles pages =
      ((allSpans pages).filter (fun s => decide (titleCond s))).map
        (fun s => pyStrip s.text) := by
  unfold detect_titles
  rw [detectTitlesPages_eq]
  simp

end ADA
